import Mathlib

/-
Verification of the stock-assistant quote pipeline (a_stock_quote.py).

The Python source is shallowly embedded: strings become List Char, Python
floats become an exact-value model (a rational number or one of the special
values inf, -inf, nan), Python ints become Int, and fallible operations
return Option. Network effects in the resilient fetcher are abstracted by an
oracle mapping the attempt index to success or failure; everything else is
translated directly from the source functions, keeping their names.
-/

/-- Convert a string literal to the List Char representation used throughout. -/
def toL (s : String) : List Char := s.toList

/-
Resilient fetcher (http_get_text, lines 150-199, and the endpoint loop of
fetch_sina_quotes, lines 627-666).

An endpoint is modelled by an oracle (ok : Nat -> Bool) telling whether the
attempt with a given index succeeds. The loop body of http_get_text either
returns the decoded text (success) or records the exception and retries;
sleeping and logging have no bearing on the attempt count and are dropped.
The model returns how many attempts were made and whether one succeeded.
-/

/-- One endpoint retry loop: attempts are numbered from the first argument,
the second argument is the remaining number of attempts (http_get_text runs
the loop body for attempt in range thus max_retries + 1 times). Returns the
number of attempts actually issued and whether some attempt succeeded. -/
def http_attempt_loop (ok : Nat → Bool) : Nat → Nat → Nat × Bool
  | _, 0 => (0, false)
  | attempt, fuel + 1 =>
    if ok attempt then (1, true)
    else
      let r := http_attempt_loop ok (attempt + 1) fuel
      (r.1 + 1, r.2)

/-- Attempt count and success flag of http_get_text with the given
max_retries: the source tries attempts 0 .. max_retries. -/
def http_get_text_attempts (ok : Nat → Bool) (max_retries : Nat) : Nat × Bool :=
  http_attempt_loop ok 0 (max_retries + 1)

/-- Endpoint loop of fetch_sina_quotes: each endpoint in order runs the full
http_get_text retry loop; on the first success the remaining endpoints are
never contacted (their attempt count stays 0). Returns the per-endpoint
attempt counts and whether some endpoint succeeded; when no endpoint
succeeds the source re-raises the last exception (the terminal error). -/
def fetch_endpoints_attempts (endpoints : List (Nat → Bool)) (max_retries : Nat) :
    List Nat × Bool :=
  match endpoints with
  | [] => ([], false)
  | e :: rest =>
    let r := http_get_text_attempts e max_retries
    if r.2 then (r.1 :: rest.map (fun _ => 0), true)
    else
      let rr := fetch_endpoints_attempts rest max_retries
      (r.1 :: rr.1, rr.2)

theorem http_attempt_loop_le (ok : Nat → Bool) :
    ∀ fuel a, (http_attempt_loop ok a fuel).1 ≤ fuel := by
  intro fuel
  induction fuel with
  | zero => intro a; simp [http_attempt_loop]
  | succ n ih =>
    intro a
    simp only [http_attempt_loop]
    split
    · exact Nat.succ_le_succ (Nat.zero_le n)
    · exact Nat.succ_le_succ (ih (a + 1))

theorem http_attempt_loop_allfail (ok : Nat → Bool) (h : ∀ i, ok i = false) :
    ∀ fuel a, http_attempt_loop ok a fuel = (fuel, false) := by
  intro fuel
  induction fuel with
  | zero => intro a; simp [http_attempt_loop]
  | succ n ih =>
    intro a
    simp [http_attempt_loop, h a, ih (a + 1)]

theorem http_attempt_loop_success (ok : Nat → Bool) :
    ∀ fuel a i, i < fuel → ok (a + i) = true →
      (http_attempt_loop ok a fuel).2 = true := by
  intro fuel
  induction fuel with
  | zero => intro a i hi; omega
  | succ n ih =>
    intro a i hi hok
    simp only [http_attempt_loop]
    by_cases h0 : ok a = true
    · simp [h0]
    · have hne : i ≠ 0 := by
        intro h; rw [h] at hok; simp at hok; exact h0 hok
      have : ok (a + 1 + (i - 1)) = true := by
        have : a + 1 + (i - 1) = a + i := by omega
        rw [this]; exact hok
      have hres := ih (a + 1) (i - 1) (by omega) this
      simp [h0, hres]

theorem fetch_counts_le (max_retries : Nat) :
    ∀ endpoints c, c ∈ (fetch_endpoints_attempts endpoints max_retries).1 →
      c ≤ max_retries + 1 := by
  intro endpoints
  induction endpoints with
  | nil => intro c hc; simp [fetch_endpoints_attempts] at hc
  | cons e rest ih =>
    intro c hc
    simp only [fetch_endpoints_attempts] at hc
    split at hc
    · rcases List.mem_cons.1 hc with h | h
      · rw [h]; exact http_attempt_loop_le e (max_retries + 1) 0
      · rcases List.mem_map.1 h with ⟨_, _, h2⟩
        omega
    · rcases List.mem_cons.1 hc with h | h
      · rw [h]; exact http_attempt_loop_le e (max_retries + 1) 0
      · exact ih c h

/-- Claim C1: in the resilient fetcher each endpoint is attempted at most
max_retries + 1 times; with max_retries = 2 and two endpoints all of whose
attempts fail, exactly 3 attempts are made on each endpoint (6 in total) and
the fetch ends in the terminal-error state; and whenever some attempt of the
retry loop on the first endpoint succeeds, the second endpoint receives no
request at all. -/
theorem c1_resilient_fetch :
    (∀ endpoints max_retries c,
        c ∈ (fetch_endpoints_attempts endpoints max_retries).1 →
        c ≤ max_retries + 1)
    ∧ (∀ e1 e2 : Nat → Bool, (∀ i, e1 i = false) → (∀ i, e2 i = false) →
        fetch_endpoints_attempts [e1, e2] 2 = ([3, 3], false))
    ∧ (∀ (e1 e2 : Nat → Bool) (max_retries i : Nat), i ≤ max_retries →
        e1 i = true →
        (fetch_endpoints_attempts [e1, e2] max_retries).1 =
          [(http_get_text_attempts e1 max_retries).1, 0]
        ∧ (fetch_endpoints_attempts [e1, e2] max_retries).2 = true) := by
  refine ⟨fun endpoints mr c hc => fetch_counts_le mr endpoints c hc, ?_, ?_⟩
  · intro e1 e2 h1 h2
    simp [fetch_endpoints_attempts, http_get_text_attempts,
      http_attempt_loop_allfail e1 h1, http_attempt_loop_allfail e2 h2]
  · intro e1 e2 mr i hi hok
    have hs : (http_get_text_attempts e1 mr).2 = true := by
      have := http_attempt_loop_success e1 (mr + 1) 0 i (by omega) (by simpa using hok)
      simpa [http_get_text_attempts] using this
    constructor <;> simp [fetch_endpoints_attempts, hs]

/-- Witness for c1_resilient_fetch: instantiating with the always-failing
oracle and with an oracle succeeding at attempt 1 evaluates the model at
concrete inputs. -/
theorem c1_resilient_fetch_witness :
    fetch_endpoints_attempts [fun _ => false, fun _ => false] 2 = ([3, 3], false)
    ∧ (fetch_endpoints_attempts [fun i => i == 1, fun _ => true] 2).1 = [2, 0] := by
  constructor
  · exact c1_resilient_fetch.2.1 _ _ (fun _ => rfl) (fun _ => rfl)
  · have := (c1_resilient_fetch.2.2 (fun i => i == 1) (fun _ => true) 2 1
      (by decide) (by decide)).1
    rw [this]
    rfl

/-
Character-level model of the Python string operations used by the resolver:
str.strip, str.lower, str.upper, str.isdigit, str.zfill. Only the ASCII
behaviour matters for canonical codes; characters are Lean Char values and
the case conversions are the ASCII ones.
-/

/-- Python whitespace test on a code point (space, tab, newline, carriage
return, vertical tab, form feed), as used by str.strip. -/
def spaceNat (n : Nat) : Bool :=
  decide (n = 32 ∨ n = 9 ∨ n = 10 ∨ n = 13 ∨ n = 11 ∨ n = 12)

/-- ASCII decimal digit test on a code point. -/
def digitNat (n : Nat) : Bool := decide (48 ≤ n ∧ n ≤ 57)

/-- Whitespace test on a character. -/
def pyIsSpace (c : Char) : Bool := spaceNat c.toNat

/-- Digit test on a character (Python str.isdigit, ASCII fragment). -/
def pyIsDigitChar (c : Char) : Bool := digitNat c.toNat

/-- ASCII lower-casing of one character (Python str.lower). -/
def pyToLower (c : Char) : Char :=
  if 65 ≤ c.toNat ∧ c.toNat ≤ 90 then Char.ofNat (c.toNat + 32) else c

/-- ASCII upper-casing of one character (Python str.upper). -/
def pyToUpper (c : Char) : Char :=
  if 97 ≤ c.toNat ∧ c.toNat ≤ 122 then Char.ofNat (c.toNat - 32) else c

theorem char_toNat_ofNat {n : Nat} (h : n < 55296) : (Char.ofNat n).toNat = n := by
  rw [Char.ofNat, dif_pos (Or.inl h)]
  rfl

theorem char_eq_of_toNat {c d : Char} (h : c.toNat = d.toNat) : c = d := by
  apply Char.ext
  exact UInt32.toNat.inj h

theorem char_toNat_lt (c : Char) : c.toNat < 1114112 := by
  rcases c.valid with h | h
  · exact Nat.lt_trans h (by decide)
  · exact h.2

theorem pyToLower_toNat (c : Char) :
    (pyToLower c).toNat =
      if 65 ≤ c.toNat ∧ c.toNat ≤ 90 then c.toNat + 32 else c.toNat := by
  unfold pyToLower
  split
  next h => rw [char_toNat_ofNat (by omega)]
  next h => rfl

theorem pyToUpper_toNat (c : Char) :
    (pyToUpper c).toNat =
      if 97 ≤ c.toNat ∧ c.toNat ≤ 122 then c.toNat - 32 else c.toNat := by
  unfold pyToUpper
  split
  next h => rw [char_toNat_ofNat (by omega)]
  next h => rfl

theorem pyIsSpace_pyToLower (c : Char) : pyIsSpace (pyToLower c) = pyIsSpace c := by
  simp only [pyIsSpace, spaceNat, pyToLower_toNat]
  split_ifs
  · rw [decide_eq_decide]
    omega
  · rfl

theorem pyIsSpace_pyToUpper (c : Char) : pyIsSpace (pyToUpper c) = pyIsSpace c := by
  simp only [pyIsSpace, spaceNat, pyToUpper_toNat]
  split_ifs
  · rw [decide_eq_decide]
    omega
  · rfl

theorem pyIsDigitChar_pyToLower (c : Char) :
    pyIsDigitChar (pyToLower c) = pyIsDigitChar c := by
  simp only [pyIsDigitChar, digitNat, pyToLower_toNat]
  split_ifs
  · rw [decide_eq_decide]
    omega
  · rfl

theorem pyIsDigitChar_pyToUpper (c : Char) :
    pyIsDigitChar (pyToUpper c) = pyIsDigitChar c := by
  simp only [pyIsDigitChar, digitNat, pyToUpper_toNat]
  split_ifs
  · rw [decide_eq_decide]
    omega
  · rfl

theorem pyToLower_idem (c : Char) : pyToLower (pyToLower c) = pyToLower c := by
  apply char_eq_of_toNat
  simp only [pyToLower_toNat]
  split_ifs <;> omega

theorem pyToUpper_pyToLower_pyToUpper (c : Char) :
    pyToUpper (pyToLower (pyToUpper c)) = pyToUpper c := by
  apply char_eq_of_toNat
  simp only [pyToUpper_toNat, pyToLower_toNat]
  split_ifs <;> omega

theorem pyToLower_of_digit {c : Char} (h : pyIsDigitChar c = true) :
    pyToLower c = c := by
  apply char_eq_of_toNat
  simp only [pyIsDigitChar, digitNat, decide_eq_true_eq] at h
  simp only [pyToLower_toNat]
  split_ifs <;> omega

theorem digit_not_space {c : Char} (h : pyIsDigitChar c = true) :
    pyIsSpace c = false := by
  simp only [pyIsDigitChar, digitNat, decide_eq_true_eq] at h
  simp only [pyIsSpace, spaceNat, decide_eq_false_iff_not]
  omega

theorem pyIsSpace_false_pyToUpper {c : Char} (h : pyIsSpace c = false) :
    pyIsSpace (pyToUpper c) = false := by
  rw [pyIsSpace_pyToUpper]
  exact h

/-- Remove trailing characters satisfying p (the right half of str.strip). -/
def dropTrailWhile (p : Char → Bool) (l : List Char) : List Char :=
  (l.reverse.dropWhile p).reverse

/-- Python str.strip with no argument: remove leading and trailing whitespace. -/
def pyStrip (l : List Char) : List Char :=
  dropTrailWhile pyIsSpace (l.dropWhile pyIsSpace)

/-- Python str.strip with an explicit character set. -/
def pyStripChars (cs : List Char) (l : List Char) : List Char :=
  dropTrailWhile (fun c => c ∈ cs) (l.dropWhile (fun c => c ∈ cs))

/-- Python str.lower on a whole string. -/
def pyLower (l : List Char) : List Char := l.map pyToLower

/-- Python str.isdigit: non-empty and all digits. -/
def pyIsDigit (l : List Char) : Bool := !l.isEmpty && l.all pyIsDigitChar

/-- Python str.zfill: left-pad with zeros to the given width, keeping a
leading sign character in front of the padding. -/
def zfill (l : List Char) (width : Nat) : List Char :=
  match l with
  | [] => List.replicate width '0'
  | c :: rest =>
    if c = '+' ∨ c = '-' then
      c :: (List.replicate (width - l.length) '0' ++ rest)
    else
      List.replicate (width - l.length) '0' ++ l

/-- Python str.startswith, list form. -/
def startsWithL (l p : List Char) : Bool := l.take p.length == p

theorem dropWhile_head_not (p : Char → Bool) :
    ∀ (l : List Char) (c : Char), (l.dropWhile p).head? = some c → p c = false := by
  intro l
  induction l with
  | nil => intro c h; simp [List.dropWhile] at h
  | cons a rest ih =>
    intro c h
    rw [List.dropWhile_cons] at h
    split at h
    · exact ih c h
    next hpa =>
      simp only [List.head?_cons, Option.some.injEq] at h
      rw [← h]
      exact Bool.not_eq_true _ ▸ (Bool.eq_false_iff.2 hpa)

theorem dropWhile_eq_self_of_head (p : Char → Bool) (l : List Char)
    (h : ∀ c, l.head? = some c → p c = false) : l.dropWhile p = l := by
  cases l with
  | nil => rfl
  | cons a rest =>
    rw [List.dropWhile_cons, if_neg]
    rw [h a rfl]
    simp

theorem dropTrailWhile_getLast_not (p : Char → Bool) (l : List Char) (c : Char)
    (h : (dropTrailWhile p l).getLast? = some c) : p c = false := by
  unfold dropTrailWhile at h
  rw [List.getLast?_reverse] at h
  exact dropWhile_head_not p l.reverse c h

theorem dropTrailWhile_eq_self (p : Char → Bool) (l : List Char)
    (h : ∀ c, l.getLast? = some c → p c = false) : dropTrailWhile p l = l := by
  unfold dropTrailWhile
  rw [dropWhile_eq_self_of_head p l.reverse, List.reverse_reverse]
  intro c hc
  rw [List.head?_reverse] at hc
  exact h c hc

theorem dropTrailWhile_head (p : Char → Bool) (l : List Char) (c : Char)
    (h : (dropTrailWhile p l).head? = some c) : l.head? = some c := by
  have hsuf : l.reverse.dropWhile p <:+ l.reverse := List.dropWhile_suffix p
  have hpre : dropTrailWhile p l <+: l := by
    unfold dropTrailWhile
    have := List.reverse_prefix.2 hsuf
    rwa [List.reverse_reverse] at this
  rcases hpre with ⟨t, ht⟩
  rw [← ht, List.head?_append, h]
  rfl

theorem pyStrip_head_not (l : List Char) (c : Char)
    (h : (pyStrip l).head? = some c) : pyIsSpace c = false := by
  unfold pyStrip at h
  exact dropWhile_head_not pyIsSpace _ c (dropTrailWhile_head pyIsSpace _ c h)

theorem pyStrip_getLast_not (l : List Char) (c : Char)
    (h : (pyStrip l).getLast? = some c) : pyIsSpace c = false := by
  unfold pyStrip at h
  exact dropTrailWhile_getLast_not pyIsSpace _ c h

theorem pyStrip_eq_self (l : List Char)
    (h1 : ∀ c, l.head? = some c → pyIsSpace c = false)
    (h2 : ∀ c, l.getLast? = some c → pyIsSpace c = false) : pyStrip l = l := by
  unfold pyStrip
  rw [dropWhile_eq_self_of_head pyIsSpace l h1]
  exact dropTrailWhile_eq_self pyIsSpace l h2

theorem pyStrip_map_pyToLower (l : List Char) :
    pyStrip (pyLower l) = pyLower (pyStrip l) := by
  unfold pyStrip pyLower dropTrailWhile
  have hcomp : (pyIsSpace ∘ pyToLower) = pyIsSpace := by
    funext c
    exact pyIsSpace_pyToLower c
  rw [List.dropWhile_map, hcomp, ← List.map_reverse, List.dropWhile_map, hcomp,
    ← List.map_reverse]

theorem pyLower_idem (l : List Char) : pyLower (pyLower l) = pyLower l := by
  unfold pyLower
  rw [List.map_map]
  apply List.map_congr_left
  intro c _
  exact pyToLower_idem c

theorem pyStrip_of_digits (l : List Char) (h : pyIsDigit l = true) :
    pyStrip l = l := by
  simp only [pyIsDigit, Bool.and_eq_true, List.all_eq_true] at h
  apply pyStrip_eq_self
  · intro c hc
    exact digit_not_space (h.2 c (List.mem_of_mem_head? hc))
  · intro c hc
    exact digit_not_space (h.2 c (List.mem_of_mem_getLast? hc))

theorem pyLower_of_digits (l : List Char) (h : pyIsDigit l = true) :
    pyLower l = l := by
  simp only [pyIsDigit, Bool.and_eq_true, List.all_eq_true] at h
  unfold pyLower
  have heq : l.map pyToLower = l.map id :=
    List.map_congr_left (fun c hc => pyToLower_of_digit (h.2 c hc))
  rw [heq, List.map_id]

/-
Symbol resolver (normalize_codes, lines 437-483, infer_exchange_prefix,
lines 403-434, resolve_inputs_to_prefixed_codes, lines 356-400).
-/

/-- Translation of infer_exchange_prefix: infer the A-share exchange marker
for a 6-digit code, or return the existing 2-letter marker. -/
def infer_exchange_prefix (stock_code : List Char) : Option (List Char) :=
  let code := pyLower (pyStrip stock_code)
  if code = [] then none
  else if startsWithL code (toL "sh") = true ∨ startsWithL code (toL "sz") = true ∨
      startsWithL code (toL "bj") = true ∨ startsWithL code (toL "hk") = true then
    some (code.take 2)
  else if pyIsDigit code = false ∨ code.length ≠ 6 then none
  else
    match code.head? with
    | none => none
    | some c =>
      if c = '6' ∨ c = '9' ∨ c = '5' then some (toL "sh")
      else if c = '0' ∨ c = '2' ∨ c = '3' then some (toL "sz")
      else if c = '4' ∨ c = '8' then some (toL "bj")
      else none

/-- Loop body of normalize_codes for one raw token: strip and lower-case,
then keep explicit sh/sz/bj codes, normalize hk codes (zero-fill numeric
tails to 5, upper-case other tails), infer the exchange for bare 6-digit
codes, and treat bare 1 to 5 digit codes as Hong Kong numeric codes.
Returns none exactly where the source hits a continue with no code. -/
def normalizeToken (raw : List Char) : Option (List Char) :=
  let code := pyLower (pyStrip raw)
  if code = [] then none
  else if startsWithL code (toL "sh") = true ∨ startsWithL code (toL "sz") = true ∨
      startsWithL code (toL "bj") = true then
    some code
  else if startsWithL code (toL "hk") = true then
    let tl := code.drop 2
    let tl2 := if pyIsDigit tl = true then zfill tl 5 else tl.map pyToUpper
    some (toL "hk" ++ tl2)
  else if pyIsDigit code = true then
    if code.length = 6 then
      match infer_exchange_prefix code with
      | none => none
      | some pfx => some (pfx ++ code)
    else if 1 ≤ code.length ∧ code.length ≤ 5 then
      some (toL "hk" ++ zfill code 5)
    else none
  else none

/-- Translation of normalize_codes: map tokens through normalizeToken and
deduplicate keeping the first occurrence (the seen set of the source always
equals the set of elements of the accumulator). -/
def normalize_codes (codes : List (List Char)) : List (List Char) :=
  codes.foldl (fun acc raw =>
    match normalizeToken raw with
    | none => acc
    | some full => if full ∈ acc then acc else acc ++ [full]) []

theorem zfill_length (l : List Char) (w : Nat) :
    (zfill l w).length = max w l.length := by
  cases l with
  | nil => simp [zfill]
  | cons c rest =>
    by_cases hs : c = '+' ∨ c = '-'
    · simp only [zfill, if_pos hs, List.length_cons, List.length_append,
        List.length_replicate]
      omega
    · simp only [zfill, if_neg hs, List.length_cons, List.length_append,
        List.length_replicate]
      omega

theorem zfill_of_le (l : List Char) (w : Nat) (h : w ≤ l.length) :
    zfill l w = l := by
  cases l with
  | nil =>
    simp only [List.length_nil, Nat.le_zero] at h
    simp [zfill, h]
  | cons c rest =>
    have h0 : w - (c :: rest).length = 0 := by omega
    simp only [zfill, h0]
    split <;> simp

theorem pyIsDigit_zfill {l : List Char} (h : pyIsDigit l = true) (w : Nat) :
    pyIsDigit (zfill l w) = true := by
  cases l with
  | nil => simp [pyIsDigit] at h
  | cons c rest =>
    simp only [pyIsDigit, Bool.and_eq_true, Bool.not_eq_true', List.all_eq_true] at h
    obtain ⟨-, hall⟩ := h
    have hc : pyIsDigitChar c = true := hall c (by simp)
    have hcs : ¬(c = '+' ∨ c = '-') := by
      rintro (rfl | rfl) <;> simp [pyIsDigitChar, digitNat] at hc
    simp only [zfill, if_neg hcs]
    simp only [pyIsDigit, Bool.and_eq_true, Bool.not_eq_true', List.all_eq_true]
    refine ⟨by simp, ?_⟩
    intro x hx
    rcases List.mem_append.1 hx with hx | hx
    · rw [List.eq_of_mem_replicate hx]
      decide
    · exact hall x hx

theorem zfill_head_digit {l : List Char} (h : pyIsDigit l = true) (w : Nat)
    {c : Char} (hc : (zfill l w).head? = some c) : pyIsDigitChar c = true := by
  have hz := pyIsDigit_zfill h w
  simp only [pyIsDigit, Bool.and_eq_true, List.all_eq_true] at hz
  exact hz.2 c (List.mem_of_mem_head? hc)

theorem startsWithL_pair_iff (a b x y : Char) (t : List Char) :
    startsWithL (a :: b :: t) [x, y] = true ↔ a = x ∧ b = y := by
  unfold startsWithL
  simp [List.take]

theorem startsWithL_iff_pair {l : List Char} {x y : Char} :
    startsWithL l [x, y] = true ↔ ∃ t, l = x :: y :: t := by
  cases l with
  | nil => simp [startsWithL]
  | cons a rest =>
    cases rest with
    | nil => simp [startsWithL, List.take]
    | cons b t =>
      rw [startsWithL_pair_iff]
      constructor
      · rintro ⟨rfl, rfl⟩
        exact ⟨t, rfl⟩
      · rintro ⟨t2, heq⟩
        injection heq with h1 h2
        injection h2 with h2 h3
        exact ⟨h1, h2⟩

theorem toL_sh : toL "sh" = ['s', 'h'] := rfl

theorem toL_sz : toL "sz" = ['s', 'z'] := rfl

theorem toL_bj : toL "bj" = ['b', 'j'] := rfl

theorem toL_hk : toL "hk" = ['h', 'k'] := rfl

theorem pyStrip_pyStrip (l : List Char) : pyStrip (pyStrip l) = pyStrip l :=
  pyStrip_eq_self (pyStrip l) (pyStrip_head_not l) (pyStrip_getLast_not l)

/-- The strip-then-lower canonical form of the source is stable under a
second strip-then-lower pass. -/
theorem canon_code (raw : List Char) :
    pyLower (pyStrip (pyLower (pyStrip raw))) = pyLower (pyStrip raw) := by
  rw [pyStrip_map_pyToLower, pyStrip_pyStrip, pyLower_idem]

theorem code_head_not_space (raw : List Char) (c : Char)
    (h : (pyLower (pyStrip raw)).head? = some c) : pyIsSpace c = false := by
  unfold pyLower at h
  rw [List.head?_map] at h
  cases hh : (pyStrip raw).head? with
  | none => rw [hh] at h; simp at h
  | some d =>
    rw [hh] at h
    simp only [Option.map_some', Option.some.injEq] at h
    rw [← h, pyIsSpace_pyToLower]
    exact pyStrip_head_not raw d hh

theorem code_getLast_not_space (raw : List Char) (c : Char)
    (h : (pyLower (pyStrip raw)).getLast? = some c) : pyIsSpace c = false := by
  unfold pyLower at h
  rw [List.getLast?_map] at h
  cases hh : (pyStrip raw).getLast? with
  | none => rw [hh] at h; simp at h
  | some d =>
    rw [hh] at h
    simp only [Option.map_some', Option.some.injEq] at h
    rw [← h, pyIsSpace_pyToLower]
    exact pyStrip_getLast_not raw d hh

theorem pyStrip_eq_self_of_forall (l : List Char)
    (h : ∀ c ∈ l, pyIsSpace c = false) : pyStrip l = l :=
  pyStrip_eq_self l (fun c hc => h c (List.mem_of_mem_head? hc))
    (fun c hc => h c (List.mem_of_mem_getLast? hc))

theorem pyIsDigit_map {f : Char → Char}
    (hf : ∀ c, pyIsDigitChar (f c) = pyIsDigitChar c) (l : List Char) :
    pyIsDigit (l.map f) = pyIsDigit l := by
  unfold pyIsDigit
  rw [List.all_map, show (pyIsDigitChar ∘ f) = pyIsDigitChar from funext hf]
  cases l <;> rfl

theorem startsWith_digit_head {code : List Char} {a b : Char}
    (hd : pyIsDigit code = true) (hs : startsWithL code [a, b] = true) :
    pyIsDigitChar a = true := by
  obtain ⟨t, rfl⟩ := startsWithL_iff_pair.1 hs
  simp only [pyIsDigit, Bool.and_eq_true, List.all_eq_true] at hd
  exact hd.2 a (by simp)

/-- On an all-digit 6-character code, infer_exchange_prefix only ever
answers with one of the three A-share markers. -/
theorem infer_digit6 {code pfx : List Char} (hd : pyIsDigit code = true)
    (h : infer_exchange_prefix code = some pfx) :
    pfx = toL "sh" ∨ pfx = toL "sz" ∨ pfx = toL "bj" := by
  simp only [ infer_exchange_prefix] at h
  rw [pyStrip_of_digits code hd, pyLower_of_digits code hd] at h
  split at h
  · exact absurd h (by simp)
  split at h
  next hsw =>
    exfalso
    rcases hsw with hs | hs | hs | hs <;>
      [rw [toL_sh] at hs; rw [toL_sz] at hs; rw [toL_bj] at hs; rw [toL_hk] at hs] <;>
      · have := startsWith_digit_head hd hs
        simp [pyIsDigitChar, digitNat] at this
  split at h
  · exact absurd h (by simp)
  · split at h
    · exact absurd h (by simp)
    · split at h
      · left
        exact (Option.some.injEq _ _ ▸ h).symm ▸ rfl
      · split at h
        · right; left
          exact (Option.some.injEq _ _ ▸ h).symm ▸ rfl
        · split at h
          · right; right
            exact (Option.some.injEq _ _ ▸ h).symm ▸ rfl
          · exact absurd h (by simp)

/-- Renormalizing a produced hk code with an all-digit zero-filled tail
returns it unchanged. -/
theorem normalizeToken_hk_digits (t : List Char) (hd : pyIsDigit t = true) :
    normalizeToken ('h' :: 'k' :: zfill t 5) = some ('h' :: 'k' :: zfill t 5) := by
  have hz : pyIsDigit (zfill t 5) = true := pyIsDigit_zfill hd 5
  have hlen : 5 ≤ (zfill t 5).length := by
    rw [zfill_length]
    omega
  have hallz : ∀ c ∈ zfill t 5, pyIsDigitChar c = true := by
    have h2 := hz
    simp only [pyIsDigit, Bool.and_eq_true, List.all_eq_true] at h2
    exact h2.2
  have hstrip : pyStrip ('h' :: 'k' :: zfill t 5) = 'h' :: 'k' :: zfill t 5 := by
    apply pyStrip_eq_self_of_forall
    intro c hc
    rcases List.mem_cons.1 hc with rfl | hc
    · decide
    rcases List.mem_cons.1 hc with rfl | hc
    · decide
    · exact digit_not_space (hallz c hc)
  have hmap : (zfill t 5).map pyToLower = zfill t 5 := pyLower_of_digits _ hz
  have hlow : pyLower ('h' :: 'k' :: zfill t 5) = 'h' :: 'k' :: zfill t 5 := by
    unfold pyLower
    rw [List.map_cons, List.map_cons, hmap,
      show pyToLower 'h' = 'h' from by decide, show pyToLower 'k' = 'k' from by decide]
  have hne : ¬('h' :: 'k' :: zfill t 5 = ([] : List Char)) := by simp
  have hnsw : ¬(startsWithL ('h' :: 'k' :: zfill t 5) (toL "sh") = true ∨
      startsWithL ('h' :: 'k' :: zfill t 5) (toL "sz") = true ∨
      startsWithL ('h' :: 'k' :: zfill t 5) (toL "bj") = true) := by
    simp only [toL_sh, toL_sz, toL_bj, startsWithL_pair_iff]
    decide
  have hswhk : startsWithL ('h' :: 'k' :: zfill t 5) (toL "hk") = true := by
    rw [toL_hk]
    exact (startsWithL_pair_iff _ _ _ _ _).2 ⟨rfl, rfl⟩
  simp only [normalizeToken, hstrip, hlow]
  rw [if_neg hne, if_neg hnsw, if_pos hswhk]
  simp only [List.drop_succ_cons, List.drop_zero]
  rw [if_pos hz, zfill_of_le _ _ hlen, toL_hk]
  simp

/-- Renormalizing a produced hk code with an upper-cased non-numeric tail
returns it unchanged. -/
theorem normalizeToken_hk_upper (t : List Char) (hd : pyIsDigit t = false)
    (hlast : ∀ c, t.getLast? = some c → pyIsSpace c = false) :
    normalizeToken ('h' :: 'k' :: t.map pyToUpper) =
      some ('h' :: 'k' :: t.map pyToUpper) := by
  have hstrip : pyStrip ('h' :: 'k' :: t.map pyToUpper) =
      'h' :: 'k' :: t.map pyToUpper := by
    apply pyStrip_eq_self
    · intro c hc
      simp only [List.head?_cons, Option.some.injEq] at hc
      rw [← hc]
      decide
    · intro c hc
      rw [List.getLast?_cons_cons] at hc
      cases hmt : t.map pyToUpper with
      | nil =>
        rw [hmt] at hc
        simp only [List.getLast?_singleton, Option.some.injEq] at hc
        rw [← hc]
        decide
      | cons m ms =>
        rw [hmt, List.getLast?_cons_cons, ← hmt, List.getLast?_map] at hc
        cases hgl : t.getLast? with
        | none => rw [hgl] at hc; simp at hc
        | some d =>
          rw [hgl] at hc
          simp only [Option.map_some', Option.some.injEq] at hc
          rw [← hc, pyIsSpace_pyToUpper]
          exact hlast d hgl
  have hmapdig : pyIsDigit ((t.map pyToUpper).map pyToLower) = false := by
    rw [pyIsDigit_map pyIsDigitChar_pyToLower, pyIsDigit_map pyIsDigitChar_pyToUpper]
    exact hd
  have hlow : pyLower ('h' :: 'k' :: t.map pyToUpper) =
      'h' :: 'k' :: (t.map pyToUpper).map pyToLower := by
    unfold pyLower
    rw [List.map_cons, List.map_cons,
      show pyToLower 'h' = 'h' from by decide, show pyToLower 'k' = 'k' from by decide]
  have hne : ¬('h' :: 'k' :: (t.map pyToUpper).map pyToLower = ([] : List Char)) := by
    simp
  have hnsw : ¬(startsWithL ('h' :: 'k' :: (t.map pyToUpper).map pyToLower)
        (toL "sh") = true ∨
      startsWithL ('h' :: 'k' :: (t.map pyToUpper).map pyToLower) (toL "sz") = true ∨
      startsWithL ('h' :: 'k' :: (t.map pyToUpper).map pyToLower) (toL "bj") = true) := by
    simp only [toL_sh, toL_sz, toL_bj, startsWithL_pair_iff]
    decide
  have hswhk : startsWithL ('h' :: 'k' :: (t.map pyToUpper).map pyToLower)
      (toL "hk") = true := by
    rw [toL_hk]
    exact (startsWithL_pair_iff _ _ _ _ _).2 ⟨rfl, rfl⟩
  have hulu : ((t.map pyToUpper).map pyToLower).map pyToUpper = t.map pyToUpper := by
    rw [List.map_map, List.map_map]
    exact List.map_congr_left (fun c _ => pyToUpper_pyToLower_pyToUpper c)
  simp only [normalizeToken, hstrip, hlow]
  rw [if_neg hne, if_neg hnsw, if_pos hswhk]
  simp only [List.drop_succ_cons, List.drop_zero]
  rw [if_neg (show ¬(pyIsDigit ((t.map pyToUpper).map pyToLower) = true) by
    rw [hmapdig]; simp)]
  rw [toL_hk, hulu]
  simp

/-- Renormalizing a produced code of the shape marker-letters plus digits
returns it unchanged. -/
theorem normalizeToken_letter2_digits (a b : Char) (code : List Char)
    (hd : pyIsDigit code = true)
    (hna : pyIsSpace a = false) (hnb : pyIsSpace b = false)
    (hla : pyToLower a = a) (hlb : pyToLower b = b)
    (hsw : startsWithL (a :: b :: code) (toL "sh") = true ∨
      startsWithL (a :: b :: code) (toL "sz") = true ∨
      startsWithL (a :: b :: code) (toL "bj") = true) :
    normalizeToken (a :: b :: code) = some (a :: b :: code) := by
  have hall : ∀ c ∈ code, pyIsDigitChar c = true := by
    have h2 := hd
    simp only [pyIsDigit, Bool.and_eq_true, List.all_eq_true] at h2
    exact h2.2
  have hstrip : pyStrip (a :: b :: code) = a :: b :: code := by
    apply pyStrip_eq_self_of_forall
    intro c hc
    rcases List.mem_cons.1 hc with rfl | hc
    · exact hna
    rcases List.mem_cons.1 hc with rfl | hc
    · exact hnb
    · exact digit_not_space (hall c hc)
  have hmap : code.map pyToLower = code := pyLower_of_digits code hd
  have hlow : pyLower (a :: b :: code) = a :: b :: code := by
    unfold pyLower
    rw [List.map_cons, List.map_cons, hmap, hla, hlb]
  simp only [normalizeToken, hstrip, hlow]
  rw [if_neg (show ¬(a :: b :: code = ([] : List Char)) by simp), if_pos hsw]

/-- Core of claim C4: any output of the token normalizer is a fixed point of
the token normalizer. -/
theorem normalizeToken_fix {raw full : List Char}
    (h : normalizeToken raw = some full) : normalizeToken full = some full := by
  have hcanon := canon_code raw
  simp only [normalizeToken] at h
  split at h
  case isTrue => exact absurd h (by simp)
  case isFalse h0 =>
  split at h
  case isTrue h1 =>
    have hfc : pyLower (pyStrip raw) = full := by
      injection h
    rw [← hfc]
    simp only [normalizeToken, hcanon]
    rw [if_neg h0, if_pos h1]
  case isFalse h1 =>
  split at h
  case isTrue h2 =>
    rw [toL_hk] at h2
    obtain ⟨t, hct⟩ := startsWithL_iff_pair.1 h2
    rw [hct] at h
    simp only [List.drop_succ_cons, List.drop_zero, toL_hk] at h
    by_cases hdt : pyIsDigit t = true
    · rw [if_pos hdt] at h
      simp only [List.cons_append, List.nil_append] at h
      injection h with h9
      rw [← h9]
      exact normalizeToken_hk_digits t hdt
    · rw [if_neg hdt] at h
      simp only [List.cons_append, List.nil_append] at h
      injection h with h9
      rw [← h9]
      refine normalizeToken_hk_upper t (by simpa using hdt) ?_
      intro c hc
      apply code_getLast_not_space raw
      rw [hct]
      cases t with
      | nil => simp at hc
      | cons t0 ts =>
        rw [List.getLast?_cons_cons, List.getLast?_cons_cons]
        exact hc
  case isFalse h2 =>
  split at h
  case isTrue h3 =>
    split at h
    case isTrue h4 =>
      cases hinf : infer_exchange_prefix (pyLower (pyStrip raw)) with
      | none => rw [hinf] at h; exact absurd h (by simp)
      | some pfx =>
        rw [hinf] at h
        injection h with h9
        rw [← h9]
        rcases infer_digit6 h3 hinf with hp | hp | hp <;> rw [hp] <;>
          [rw [toL_sh]; rw [toL_sz]; rw [toL_bj]] <;>
          simp only [List.cons_append, List.nil_append] <;>
          apply normalizeToken_letter2_digits _ _ _ h3 (by decide) (by decide)
            (by decide) (by decide)
        · left
          rw [toL_sh]
          exact (startsWithL_pair_iff _ _ _ _ _).2 ⟨rfl, rfl⟩
        · right; left
          rw [toL_sz]
          exact (startsWithL_pair_iff _ _ _ _ _).2 ⟨rfl, rfl⟩
        · right; right
          rw [toL_bj]
          exact (startsWithL_pair_iff _ _ _ _ _).2 ⟨rfl, rfl⟩
    case isFalse h4 =>
      split at h
      case isTrue h5 =>
        injection h with h9
        rw [← h9, toL_hk]
        simp only [List.cons_append, List.nil_append]
        exact normalizeToken_hk_digits _ h3
      case isFalse h5 => exact absurd h (by simp)
  case isFalse h3 => exact absurd h (by simp)

theorem mem_normalize_codes {raws : List (List Char)} {full : List Char}
    (h : full ∈ normalize_codes raws) : ∃ raw, normalizeToken raw = some full := by
  unfold normalize_codes at h
  have H : ∀ (rs : List (List Char)) (acc : List (List Char)),
      full ∈ rs.foldl (fun acc raw => match normalizeToken raw with
        | none => acc
        | some f => if f ∈ acc then acc else acc ++ [f]) acc →
      full ∈ acc ∨ ∃ raw, normalizeToken raw = some full := by
    intro rs
    induction rs with
    | nil =>
      intro acc h2
      exact Or.inl (by simpa using h2)
    | cons r rest ih =>
      intro acc h2
      rw [List.foldl_cons] at h2
      rcases ih _ h2 with hacc | hex
      · cases hnt : normalizeToken r with
        | none =>
          simp only [hnt] at hacc
          exact Or.inl hacc
        | some f =>
          simp only [hnt] at hacc
          by_cases hf : f ∈ acc
          · rw [if_pos hf] at hacc
            exact Or.inl hacc
          · rw [if_neg hf] at hacc
            rcases List.mem_append.1 hacc with h3 | h3
            · exact Or.inl h3
            · simp only [List.mem_singleton] at h3
              exact Or.inr ⟨r, h3 ▸ hnt⟩
      · exact Or.inr hex
  rcases H raws [] h with h2 | h2
  · simp at h2
  · exact h2

theorem normalize_codes_single {full : List Char}
    (h : normalizeToken full = some full) : normalize_codes [full] = [full] := by
  unfold normalize_codes
  simp [h]

/-- Claim C4: direct normalization is idempotent. Every element of the
output of normalize_codes is normalized to itself: running normalize_codes
on it again returns exactly that one code unchanged. -/
theorem c4_normalize_idempotent :
    ∀ (raws : List (List Char)) (full : List Char),
      full ∈ normalize_codes raws → normalize_codes [full] = [full] := by
  intro raws full h
  obtain ⟨raw, hraw⟩ := mem_normalize_codes h
  exact normalize_codes_single (normalizeToken_fix hraw)

/-- Witness for c4_normalize_idempotent at the canonical example: the code
sh600519 is produced from the bare token 600519 and renormalizes to itself. -/
theorem c4_normalize_idempotent_witness :
    normalize_codes [toL "sh600519"] = [toL "sh600519"] :=
  c4_normalize_idempotent [toL "600519"] (toL "sh600519") (by decide)

/-- Counterexample to claim C2 as stated: the token sh is accepted by
direct normalization (the source keeps any token starting with sh as-is),
yet the output code string after the 2-letter market marker is empty. -/
theorem c2_counterexample :
    normalize_codes [toL "sh"] = [toL "sh"] ∧ (toL "sh").drop 2 = [] := by
  decide

/-- Claim C2 (amended): every code accepted by direct normalization starts
with one of the four market markers sh, sz, bj, hk; the code string after
the marker is non-empty except when the output is a bare marker itself
(which happens for tokens such as sh that the source keeps as-is); and for
hk an all-numeric code string has been zero-filled to length at least 5. -/
theorem c2_canonical_code :
    ∀ raw full, normalizeToken raw = some full →
      (full.take 2 = toL "sh" ∨ full.take 2 = toL "sz" ∨ full.take 2 = toL "bj" ∨
        full.take 2 = toL "hk")
      ∧ (full.drop 2 = [] →
          full = toL "sh" ∨ full = toL "sz" ∨ full = toL "bj" ∨ full = toL "hk")
      ∧ (full.take 2 = toL "hk" → pyIsDigit (full.drop 2) = true →
          5 ≤ (full.drop 2).length) := by
  intro raw full h
  simp only [normalizeToken] at h
  split at h
  case isTrue => exact absurd h (by simp)
  case isFalse h0 =>
  split at h
  case isTrue h1 =>
    have hfc : pyLower (pyStrip raw) = full := by injection h
    rw [hfc] at h1
    rcases h1 with h1 | h1 | h1
    · rw [toL_sh] at h1
      obtain ⟨t, rfl⟩ := startsWithL_iff_pair.1 h1
      refine ⟨Or.inl (by simp [toL_sh, List.take]), ?_, ?_⟩
      · intro hd
        simp only [List.drop_succ_cons, List.drop_zero] at hd
        subst hd
        exact Or.inl rfl
      · intro htk
        exfalso
        rw [show List.take 2 ('s' :: 'h' :: t) = ['s', 'h'] from rfl, toL_hk] at htk
        exact absurd htk (by decide)
    · rw [toL_sz] at h1
      obtain ⟨t, rfl⟩ := startsWithL_iff_pair.1 h1
      refine ⟨Or.inr (Or.inl (by simp [toL_sz, List.take])), ?_, ?_⟩
      · intro hd
        simp only [List.drop_succ_cons, List.drop_zero] at hd
        subst hd
        exact Or.inr (Or.inl rfl)
      · intro htk
        exfalso
        rw [show List.take 2 ('s' :: 'z' :: t) = ['s', 'z'] from rfl, toL_hk] at htk
        exact absurd htk (by decide)
    · rw [toL_bj] at h1
      obtain ⟨t, rfl⟩ := startsWithL_iff_pair.1 h1
      refine ⟨Or.inr (Or.inr (Or.inl (by simp [toL_bj, List.take]))), ?_, ?_⟩
      · intro hd
        simp only [List.drop_succ_cons, List.drop_zero] at hd
        subst hd
        exact Or.inr (Or.inr (Or.inl rfl))
      · intro htk
        exfalso
        rw [show List.take 2 ('b' :: 'j' :: t) = ['b', 'j'] from rfl, toL_hk] at htk
        exact absurd htk (by decide)
  case isFalse h1 =>
  split at h
  case isTrue h2 =>
    rw [toL_hk] at h2
    obtain ⟨t, hct⟩ := startsWithL_iff_pair.1 h2
    rw [hct] at h
    simp only [List.drop_succ_cons, List.drop_zero, toL_hk, List.cons_append,
      List.nil_append] at h
    by_cases hdt : pyIsDigit t = true
    · rw [if_pos hdt] at h
      injection h with h9
      rw [← h9]
      refine ⟨Or.inr (Or.inr (Or.inr (by simp [toL_hk, List.take]))), ?_, ?_⟩
      · intro hd
        simp only [List.drop_succ_cons, List.drop_zero] at hd
        rw [hd]
        exact Or.inr (Or.inr (Or.inr rfl))
      · intro _ _
        simp only [List.drop_succ_cons, List.drop_zero, zfill_length]
        omega
    · rw [if_neg hdt] at h
      injection h with h9
      rw [← h9]
      refine ⟨Or.inr (Or.inr (Or.inr (by simp [toL_hk, List.take]))), ?_, ?_⟩
      · intro hd
        simp only [List.drop_succ_cons, List.drop_zero] at hd
        rw [hd]
        exact Or.inr (Or.inr (Or.inr rfl))
      · intro _ hdig
        simp only [List.drop_succ_cons, List.drop_zero] at hdig
        rw [pyIsDigit_map pyIsDigitChar_pyToUpper] at hdig
        rw [hdig] at hdt
        exact absurd rfl hdt
  case isFalse h2 =>
  split at h
  case isTrue h3 =>
    split at h
    case isTrue h4 =>
      cases hinf : infer_exchange_prefix (pyLower (pyStrip raw)) with
      | none => rw [hinf] at h; exact absurd h (by simp)
      | some pfx =>
        rw [hinf] at h
        injection h with h9
        have hlen : (pyLower (pyStrip raw)).length = 6 := h4
        rcases infer_digit6 h3 hinf with hp | hp | hp <;> rw [hp] at h9 <;> rw [← h9]
        · refine ⟨Or.inl ?_, ?_, ?_⟩
          · rw [toL_sh]
            simp [List.take]
          · intro hd
            rw [toL_sh] at hd
            simp only [List.cons_append, List.nil_append, List.drop_succ_cons,
              List.drop_zero] at hd
            rw [hd] at hlen
            simp at hlen
          · intro htk
            rw [toL_sh] at htk
            simp only [List.cons_append, List.nil_append, List.take, toL_hk] at htk
            exact absurd htk (by decide)
        · refine ⟨Or.inr (Or.inl ?_), ?_, ?_⟩
          · rw [toL_sz]
            simp [List.take]
          · intro hd
            rw [toL_sz] at hd
            simp only [List.cons_append, List.nil_append, List.drop_succ_cons,
              List.drop_zero] at hd
            rw [hd] at hlen
            simp at hlen
          · intro htk
            rw [toL_sz] at htk
            simp only [List.cons_append, List.nil_append, List.take, toL_hk] at htk
            exact absurd htk (by decide)
        · refine ⟨Or.inr (Or.inr (Or.inl ?_)), ?_, ?_⟩
          · rw [toL_bj]
            simp [List.take]
          · intro hd
            rw [toL_bj] at hd
            simp only [List.cons_append, List.nil_append, List.drop_succ_cons,
              List.drop_zero] at hd
            rw [hd] at hlen
            simp at hlen
          · intro htk
            rw [toL_bj] at htk
            simp only [List.cons_append, List.nil_append, List.take, toL_hk] at htk
            exact absurd htk (by decide)
    case isFalse h4 =>
      split at h
      case isTrue h5 =>
        injection h with h9
        rw [← h9]
        rw [toL_hk]
        simp only [List.cons_append, List.nil_append]
        refine ⟨Or.inr (Or.inr (Or.inr (by simp [toL_hk, List.take]))), ?_, ?_⟩
        · intro hd
          simp only [List.drop_succ_cons, List.drop_zero] at hd
          rw [hd]
          exact Or.inr (Or.inr (Or.inr rfl))
        · intro _ _
          simp only [List.drop_succ_cons, List.drop_zero, zfill_length]
          omega
      case isFalse h5 => exact absurd h (by simp)
  case isFalse h3 => exact absurd h (by simp)

/-- Witness for c2_canonical_code: the hk code produced from the bare token
700 carries the marker hk and a 5-character zero-filled numeric string. -/
theorem c2_canonical_code_witness :
    (toL "hk00700").take 2 = toL "hk" ∧ 5 ≤ ((toL "hk00700").drop 2).length := by
  have h := c2_canonical_code (toL "700") (toL "hk00700") (by decide)
  exact ⟨by decide, h.2.2 (by decide) (by decide)⟩

/-
Resolver over whole tokens (resolve_inputs_to_prefixed_codes, lines 356-400,
and build_index_alias_map, lines 301-353). The suggest API call of step 3 is
network input and is abstracted by an oracle from the token to the candidate
list it would return.
-/

/-- Translation of build_index_alias_map as an association list. -/
def build_index_alias_map : List (List Char × List Char) :=
  [(toL "上证", toL "sh000001"), (toL "上证指数", toL "sh000001"),
   (toL "上证综指", toL "sh000001"),
   (toL "深证成指", toL "sz399001"), (toL "深成指", toL "sz399001"),
   (toL "创业板", toL "sz399006"), (toL "创业板指", toL "sz399006"),
   (toL "创业板指数", toL "sz399006"),
   (toL "科创50", toL "sh000688"), (toL "科创板50", toL "sh000688"),
   (toL "科创50指数", toL "sh000688"),
   (toL "沪深300", toL "sh000300"), (toL "沪深三百", toL "sh000300"),
   (toL "上证50", toL "sh000016"), (toL "上证五十", toL "sh000016"),
   (toL "中证500", toL "sh000905"), (toL "中证1000", toL "sh000852"),
   (toL "恒生指数", toL "hkHSI"), (toL "恒指", toL "hkHSI"),
   (toL "HSI", toL "hkHSI"),
   (toL "恒生科技指数", toL "hkHSTECH"), (toL "恒生科技", toL "hkHSTECH"),
   (toL "HSTECH", toL "hkHSTECH"),
   (toL "恒生中国企业指数", toL "hkHSCEI"), (toL "国企指数", toL "hkHSCEI"),
   (toL "HSCEI", toL "hkHSCEI"),
   (toL "恒生香港中资企业指数", toL "hkHSCCI"), (toL "HSCCI", toL "hkHSCCI")]

/-- Dictionary lookup in the alias map. -/
def aliasLookup (token : List Char) : Option (List Char) :=
  (build_index_alias_map.find? (fun kv => kv.1 == token)).map Prod.snd

/-- Append an element if it is not already present (seen-set guarded append
of the source; the seen set always equals the set of accumulated codes). -/
def insertNew (res : List (List Char)) (x : List Char) : List (List Char) :=
  if x ∈ res then res else res ++ [x]

/-- Loop body of resolve_inputs_to_prefixed_codes for one raw token. Note
the source control flow: when the alias lookup hits a code that is already
seen, the continue is skipped and the suggest step still runs. -/
def resolveStep (suggest : List Char → List (List Char))
    (res : List (List Char)) (raw : List Char) : List (List Char) :=
  let token := pyStrip raw
  if token = [] then res
  else
    let direct := normalize_codes [token]
    if direct ≠ [] then direct.foldl insertNew res
    else
      let viaSuggest :=
        match suggest token with
        | [] => res
        | first :: _ => insertNew res first
      match aliasLookup token with
      | some ac => if ac ≠ [] ∧ ac ∉ res then res ++ [ac] else viaSuggest
      | none => viaSuggest

/-- Translation of resolve_inputs_to_prefixed_codes, parameterized by the
suggest oracle. -/
def resolve_inputs_to_prefixed_codes (suggest : List Char → List (List Char))
    (inputs : List (List Char)) : List (List Char) :=
  inputs.foldl (resolveStep suggest) []

theorem insertNew_nodup {res : List (List Char)} (h : res.Nodup) (x : List Char) :
    (insertNew res x).Nodup := by
  unfold insertNew
  split
  · exact h
  next hx =>
    rw [List.nodup_append]
    exact ⟨h, List.nodup_singleton x, by
      intro a ha hax
      simp only [List.mem_singleton] at hax
      exact hx (hax ▸ ha)⟩

theorem foldl_insertNew_nodup (l : List (List Char)) :
    ∀ res, res.Nodup → (l.foldl insertNew res).Nodup := by
  induction l with
  | nil => intro res h; exact h
  | cons a t ih =>
    intro res h
    rw [List.foldl_cons]
    exact ih _ (insertNew_nodup h a)

theorem resolveStep_nodup (suggest : List Char → List (List Char))
    (res : List (List Char)) (raw : List Char) (h : res.Nodup) :
    (resolveStep suggest res raw).Nodup := by
  simp only [resolveStep]
  split
  · exact h
  split
  · exact foldl_insertNew_nodup _ res h
  · split
    · split
      next hc =>
        rw [List.nodup_append]
        refine ⟨h, List.nodup_singleton _, ?_⟩
        intro a ha hax
        simp only [List.mem_singleton] at hax
        exact hc.2 (hax ▸ ha)
      · split
        · exact h
        · exact insertNew_nodup h _
    · split
      · exact h
      · exact insertNew_nodup h _

theorem insertNew_extend (res : List (List Char)) (x : List Char) :
    ∃ suf, insertNew res x = res ++ suf := by
  unfold insertNew
  split
  · exact ⟨[], by simp⟩
  · exact ⟨[x], rfl⟩

theorem foldl_insertNew_extend (l : List (List Char)) :
    ∀ res, ∃ suf, l.foldl insertNew res = res ++ suf := by
  induction l with
  | nil => intro res; exact ⟨[], by simp⟩
  | cons a t ih =>
    intro res
    rw [List.foldl_cons]
    obtain ⟨s1, hs1⟩ := insertNew_extend res a
    obtain ⟨s2, hs2⟩ := ih (insertNew res a)
    exact ⟨s1 ++ s2, by rw [hs2, hs1, List.append_assoc]⟩

theorem resolveStep_extend (suggest : List Char → List (List Char))
    (res : List (List Char)) (raw : List Char) :
    ∃ suf, resolveStep suggest res raw = res ++ suf := by
  simp only [resolveStep]
  split
  · exact ⟨[], by simp⟩
  split
  · exact foldl_insertNew_extend _ res
  · split
    · split
      · exact ⟨_, rfl⟩
      · split
        · exact ⟨[], by simp⟩
        · exact insertNew_extend res _
    · split
      · exact ⟨[], by simp⟩
      · exact insertNew_extend res _

theorem foldl_resolveStep_extend (suggest : List Char → List (List Char))
    (l : List (List Char)) :
    ∀ res, ∃ suf, l.foldl (resolveStep suggest) res = res ++ suf := by
  induction l with
  | nil => intro res; exact ⟨[], by simp⟩
  | cons a t ih =>
    intro res
    rw [List.foldl_cons]
    obtain ⟨s1, hs1⟩ := resolveStep_extend suggest res a
    obtain ⟨s2, hs2⟩ := ih (resolveStep suggest res a)
    exact ⟨s1 ++ s2, by rw [hs2, hs1, List.append_assoc]⟩

/-- Claim C3: batch resolution deduplicates while preserving first-seen
order: the resolved list never contains duplicates, a batch extension only
appends further codes after the codes already resolved from earlier tokens
(so each code keeps the position induced by the first token resolving to
it), and resolving the tokens 600519, 600519, sh600519 yields exactly the
single code sh600519. All of this holds for every suggest oracle. -/
theorem c3_resolve_dedup_order :
    (∀ (suggest : List Char → List (List Char)) (inputs : List (List Char)),
        (resolve_inputs_to_prefixed_codes suggest inputs).Nodup)
    ∧ (∀ (suggest : List Char → List (List Char)) (pre post : List (List Char)),
        ∃ suf, resolve_inputs_to_prefixed_codes suggest (pre ++ post) =
          resolve_inputs_to_prefixed_codes suggest pre ++ suf)
    ∧ (∀ suggest : List Char → List (List Char),
        resolve_inputs_to_prefixed_codes suggest
          [toL "600519", toL "600519", toL "sh600519"] = [toL "sh600519"]) := by
  refine ⟨?_, ?_, ?_⟩
  · intro suggest inputs
    unfold resolve_inputs_to_prefixed_codes
    have H : ∀ (l : List (List Char)) (res : List (List Char)), res.Nodup →
        (l.foldl (resolveStep suggest) res).Nodup := by
      intro l
      induction l with
      | nil => intro res h; exact h
      | cons a t ih =>
        intro res h
        rw [List.foldl_cons]
        exact ih _ (resolveStep_nodup suggest res a h)
    exact H inputs [] List.nodup_nil
  · intro suggest pre post
    unfold resolve_inputs_to_prefixed_codes
    rw [List.foldl_append]
    exact foldl_resolveStep_extend suggest post _
  · intro suggest
    rfl

/-- Witness for c3_resolve_dedup_order: the empty oracle evaluates the
resolver on the concrete three-token batch. -/
theorem c3_resolve_dedup_order_witness :
    resolve_inputs_to_prefixed_codes (fun _ => [])
      [toL "600519", toL "600519", toL "sh600519"] = [toL "sh600519"] :=
  c3_resolve_dedup_order.2.2 (fun _ => [])

/-
Quote decoder (parse_sina_line, lines 500-624, _safe_float and _safe_int,
lines 486-497) and order metrics (compute_order_metrics, lines 669-692).

Python float values are modelled exactly: a rational number or one of the
special values inf, -inf, nan. Parsing a string with float() is modelled by
pyFloat?; it accepts an optional sign, the words inf, infinity and nan in
any case, and decimal literals with an optional fraction and exponent, and
returns none exactly where float() raises.
-/

/-- Exact model of a Python float value. -/
inductive PyFloat where
  | num (q : ℚ)
  | inf
  | ninf
  | nan
deriving DecidableEq

/-- Decimal value of a digit list (most significant first). -/
def digitsToNat (ds : List Char) : Nat :=
  ds.foldl (fun a c => a * 10 + (c.toNat - 48)) 0

/-- Model of the Python float() string conversion. -/
def pyFloat? (s : List Char) : Option PyFloat :=
  let t := pyStrip s
  let sgn := match t with
    | '+' :: r => (false, r)
    | '-' :: r => (true, r)
    | _ => (false, t)
  let neg := sgn.1
  let r := sgn.2
  let rl := pyLower r
  if rl = toL "inf" ∨ rl = toL "infinity" then
    some (if neg then PyFloat.ninf else PyFloat.inf)
  else if rl = toL "nan" then some PyFloat.nan
  else
    let ip := r.takeWhile pyIsDigitChar
    let r1 := r.dropWhile pyIsDigitChar
    let fr := match r1 with
      | '.' :: rest => (rest.takeWhile pyIsDigitChar, rest.dropWhile pyIsDigitChar)
      | _ => ([], r1)
    let fp := fr.1
    let r2 := fr.2
    if ip = [] ∧ fp = [] then none
    else
      let mant0 : ℚ := (digitsToNat ip : ℚ) + (digitsToNat fp : ℚ) / ((10 : ℚ) ^ fp.length)
      let mant : ℚ := if neg then -mant0 else mant0
      match r2 with
      | [] => some (PyFloat.num mant)
      | e :: r3 =>
        if e = 'e' ∨ e = 'E' then
          let esgn := match r3 with
            | '+' :: r4 => (false, r4)
            | '-' :: r4 => (true, r4)
            | _ => (false, r3)
          let ed := esgn.2.takeWhile pyIsDigitChar
          let r5 := esgn.2.dropWhile pyIsDigitChar
          if ed = [] ∨ r5 ≠ [] then none
          else
            let ex : ℚ := (10 : ℚ) ^ digitsToNat ed
            some (PyFloat.num (if esgn.1 then mant / ex else mant * ex))
        else none

/-- Truncation toward zero of a rational, the int() conversion of a float. -/
def pyTrunc (q : ℚ) : Int := Int.tdiv q.num q.den

/-- Translation of _safe_float: float(value) with 0.0 on any exception. -/
def _safe_float (value : List Char) : PyFloat :=
  match pyFloat? value with
  | some f => f
  | none => PyFloat.num 0

/-- Translation of _safe_int: int(float(value)) with 0 on any exception;
int() of inf, -inf or nan raises, so those also give 0. -/
def _safe_int (value : List Char) : Int :=
  match pyFloat? value with
  | some (PyFloat.num q) => pyTrunc q
  | some _ => 0
  | none => 0

/-- One decoded quote record. Numeric order-book volumes are Python ints;
other numeric fields are Python floats. -/
structure Quote where
  exchange : List Char
  code : List Char
  name : List Char
  current : PyFloat
  prev_close : PyFloat
  today_open : PyFloat
  high : PyFloat
  low : PyFloat
  bid : PyFloat
  ask : PyFloat
  volume_shares : Int
  amount_yuan : PyFloat
  buys : List (Int × PyFloat)
  sells : List (Int × PyFloat)
  date : List Char
  time : List Char
deriving DecidableEq

/-- The volume/price level loop of the A-share branch: read pairs at
positions idx, idx+1, idx+2, ... for the given number of levels; a missing
index raises IndexError, which stops the loop with the levels collected so
far (second component false). -/
def levelsGo (fields : List (List Char)) : Nat → Nat → List (Int × PyFloat) × Bool
  | _, 0 => ([], true)
  | idx, n + 1 =>
    match fields[idx]?, fields[idx + 1]? with
    | some v, some p =>
      let r := levelsGo fields (idx + 2) n
      ((_safe_int v, _safe_float p) :: r.1, r.2)
    | _, _ => ([], false)

/-- Translation of the try block building the five buy and five sell levels
(source lines 587-602): buy pairs start at index 10, sell pairs at index 20;
an exception in the buy loop leaves the sell levels empty. -/
def buildOrderBook (fields : List (List Char)) :
    List (Int × PyFloat) × List (Int × PyFloat) :=
  let b := levelsGo fields 10 5
  if b.2 then (b.1, (levelsGo fields 20 5).1) else (b.1, [])

/-- Field-decoding stage of parse_sina_line (source lines 529-624), taking
the exchange marker and digits from the variable name and the split payload
fields. -/
def decodeFields (exchange code_digits : List Char) (fields : List (List Char)) :
    Option Quote :=
  if exchange = toL "hk" then
    if fields.length < 19 ∨ (fields.length = 1 ∧ fields.getD 0 [] = []) then none
    else
      some
        { exchange := exchange, code := code_digits,
          name := fields.getD 1 [],
          current := _safe_float (fields.getD 2 []),
          prev_close := _safe_float (fields.getD 3 []),
          high := _safe_float (fields.getD 4 []),
          low := _safe_float (fields.getD 5 []),
          today_open := _safe_float (fields.getD 6 []),
          bid := _safe_float (fields.getD 9 []),
          ask := _safe_float (fields.getD 10 []),
          amount_yuan := _safe_float (fields.getD 11 []),
          volume_shares := _safe_int (fields.getD 12 []),
          buys := [], sells := [],
          date := if 17 < fields.length then fields.getD 17 [] else [],
          time := if 18 < fields.length then fields.getD 18 [] else [] }
  else
    if fields.length < 32 ∨ (fields.length = 1 ∧ fields.getD 0 [] = []) then none
    else
      let book := buildOrderBook fields
      some
        { exchange := exchange, code := code_digits,
          name := fields.getD 0 [],
          today_open := _safe_float (fields.getD 1 []),
          prev_close := _safe_float (fields.getD 2 []),
          current := _safe_float (fields.getD 3 []),
          high := _safe_float (fields.getD 4 []),
          low := _safe_float (fields.getD 5 []),
          bid := _safe_float (fields.getD 6 []),
          ask := _safe_float (fields.getD 7 []),
          volume_shares := _safe_int (fields.getD 8 []),
          amount_yuan := _safe_float (fields.getD 9 []),
          buys := book.1, sells := book.2,
          date := if 30 < fields.length then fields.getD 30 [] else [],
          time := if 31 < fields.length then fields.getD 31 [] else [] }

/-- Python s.split(sep, 1) under tuple unpacking into two names: fails
(ValueError, hence None in the caller) when the separator is absent. -/
def splitFirst (sep : Char) (l : List Char) : Option (List Char × List Char) :=
  if sep ∈ l then
    some (l.takeWhile (fun c => c != sep), (l.dropWhile (fun c => c != sep)).drop 1)
  else none

/-- Python substring containment test. -/
def containsSub (l sub : List Char) : Bool :=
  match l with
  | [] => sub.isEmpty
  | _ :: rest => startsWithL l sub || containsSub rest sub

/-- Python str.rfind: index of the last occurrence of sub, none if absent. -/
def rfindSub (l sub : List Char) : Option Nat :=
  ((List.range (l.length + 1)).filter (fun i => startsWithL (l.drop i) sub)).getLast?

/-- Python replace with a single space and the empty string: drop spaces. -/
def removeSpaces (l : List Char) : List Char := l.filter (fun c => c != ' ')

/-- The hq_str_ marker of the Sina response format. -/
def hqMarker : List Char := toL "hq_str_"

/-- Translation of parse_sina_line (source lines 500-624): locate the
variable name after the last hq_str_ marker in the part before the first
equals sign, strip the quoted payload, split it on commas and decode the
fields. -/
def parse_sina_line (line : List Char) : Option Quote :=
  if line = [] ∨ containsSub line hqMarker = false then none
  else
    match splitFirst '=' line with
    | none => none
    | some hp =>
      match rfindSub hp.1 hqMarker with
      | none => none
      | some pos =>
        let var_name := removeSpaces (pyStrip (hp.1.drop (pos + hqMarker.length)))
        if startsWithL (pyStrip hp.2) ['"'] = false then none
        else
          let content0 := pyStripChars [';'] (pyStripChars ['\r', '\n'] (pyStrip hp.2))
          let content := if startsWithL content0 ['"'] = true ∧
              content0.getLast? = some '"' then (content0.drop 1).dropLast else content0
          let fields := if content ≠ [] then content.splitOn ',' else []
          decodeFields (var_name.take 2) (var_name.drop 2) fields

/-- Claim C5: the quote decoder yields no Quote, rather than an exception,
for every hk record with fewer than 19 fields, every non-hk record with
fewer than 32 fields, every record with no fields at all, and in particular
for a full line with an empty quoted payload. -/
theorem c5_short_records_no_quote :
    (∀ (exchange code_digits : List Char) (fields : List (List Char)),
        exchange = toL "hk" → fields.length < 19 →
        decodeFields exchange code_digits fields = none)
    ∧ (∀ (exchange code_digits : List Char) (fields : List (List Char)),
        exchange ≠ toL "hk" → fields.length < 32 →
        decodeFields exchange code_digits fields = none)
    ∧ (∀ exchange code_digits : List Char, decodeFields exchange code_digits [] = none)
    ∧ parse_sina_line (toL "var hq_str_sh600000=\"\";") = none := by
  refine ⟨?_, ?_, ?_, ?_⟩
  · intro exchange code_digits fields he hl
    unfold decodeFields
    rw [if_pos he, if_pos (Or.inl hl)]
  · intro exchange code_digits fields he hl
    unfold decodeFields
    rw [if_neg he, if_pos (Or.inl hl)]
  · intro exchange code_digits
    unfold decodeFields
    split
    · rw [if_pos (Or.inl (by simp))]
    · rw [if_pos (Or.inl (by simp))]
  · decide

/-- Witness for c5_short_records_no_quote: a 3-field hk record, a 3-field
non-hk record and the empty field list all decode to none. -/
theorem c5_short_records_no_quote_witness :
    decodeFields (toL "hk") (toL "00700") [toL "a", toL "b", toL "c"] = none
    ∧ decodeFields (toL "sh") (toL "600000") [toL "a", toL "b", toL "c"] = none
    ∧ decodeFields (toL "sh") (toL "600000") [] = none := by
  refine ⟨?_, ?_, ?_⟩
  · exact c5_short_records_no_quote.1 _ _ _ (by decide) (by decide)
  · exact c5_short_records_no_quote.2.1 _ _ _ (by decide) (by decide)
  · exact c5_short_records_no_quote.2.2.1 _ _

/-- Claim C6: unparseable numeric text is replaced by the zero value, and a
record that meets the field-count minimum is always decoded to a Quote, no
matter what its field texts contain; corrupting one numeric field (here the
current-price field of an A-share record) zeroes that field only and the
record is still returned. -/
theorem c6_numeric_zero_default :
    (∀ v, pyFloat? v = none → _safe_float v = PyFloat.num 0 ∧ _safe_int v = 0)
    ∧ (∀ (exchange code_digits : List Char) (fields : List (List Char)),
        exchange ≠ toL "hk" → 32 ≤ fields.length →
        (decodeFields exchange code_digits fields).isSome = true)
    ∧ (∀ (exchange code_digits : List Char) (fields : List (List Char)),
        exchange = toL "hk" → 19 ≤ fields.length →
        (decodeFields exchange code_digits fields).isSome = true)
    ∧ (∀ (exchange code_digits v : List Char) (fields : List (List Char)),
        exchange ≠ toL "hk" → 32 ≤ fields.length →
        pyFloat? v = none →
        ∃ q, decodeFields exchange code_digits (fields.set 3 v) = some q ∧
          q.current = PyFloat.num 0 ∧ q.name = fields.getD 0 []) := by
  have hsf : ∀ v, pyFloat? v = none → _safe_float v = PyFloat.num 0 ∧ _safe_int v = 0 := by
    intro v hv
    unfold _safe_float _safe_int
    rw [hv]
    exact ⟨rfl, rfl⟩
  have hsome : ∀ (exchange code_digits : List Char) (fields : List (List Char)),
      exchange ≠ toL "hk" → 32 ≤ fields.length →
      (decodeFields exchange code_digits fields).isSome = true := by
    intro exchange code_digits fields he hl
    unfold decodeFields
    rw [if_neg he, if_neg (by
      rintro (h1 | h2)
      · omega
      · rw [h2.1] at hl
        omega)]
    rfl
  refine ⟨hsf, hsome, ?_, ?_⟩
  · intro exchange code_digits fields he hl
    unfold decodeFields
    rw [if_pos he, if_neg (by
      rintro (h1 | h2)
      · omega
      · rw [h2.1] at hl
        omega)]
    rfl
  · intro exchange code_digits v fields he hl hv
    have hlen : (fields.set 3 v).length = fields.length := List.length_set fields 3 v
    have hguard : ¬((fields.set 3 v).length < 32 ∨
        ((fields.set 3 v).length = 1 ∧ (fields.set 3 v).getD 0 [] = [])) := by
      rw [hlen]
      rintro (h1 | h2)
      · omega
      · rw [h2.1] at hl
        omega
    have hcur : _safe_float ((fields.set 3 v).getD 3 []) = PyFloat.num 0 := by
      rw [List.getD_eq_getElem?_getD, List.getElem?_set_self (by omega)]
      exact (hsf v hv).1
    have hname : (fields.set 3 v).getD 0 [] = fields.getD 0 [] := by
      rw [List.getD_eq_getElem?_getD, List.getD_eq_getElem?_getD,
        List.getElem?_set_ne (by omega)]
    have hs2 := hsome exchange code_digits (fields.set 3 v) he (by omega)
    obtain ⟨q, hq⟩ := Option.isSome_iff_exists.1 hs2
    unfold decodeFields at hq
    rw [if_neg he, if_neg hguard] at hq
    injection hq with h9
    refine ⟨q, ?_, ?_, ?_⟩
    · unfold decodeFields
      rw [if_neg he, if_neg hguard]
      exact congrArg some h9
    · rw [← h9]
      exact hcur
    · rw [← h9]
      exact hname

/-- Witness for c6_numeric_zero_default: the text abc does not parse as a
float, so both safe parsers return zero, and a concrete 32-field record with
abc in the current-price slot still decodes, with a zeroed price. -/
theorem c6_numeric_zero_default_witness :
    (_safe_float (toL "abc") = PyFloat.num 0 ∧ _safe_int (toL "abc") = 0)
    ∧ (decodeFields (toL "sh") (toL "600000")
        ((List.replicate 32 (toL "1")).set 3 (toL "abc"))).isSome = true := by
  constructor
  · exact c6_numeric_zero_default.1 (toL "abc") (by decide)
  · obtain ⟨q, hq, -, -⟩ := c6_numeric_zero_default.2.2.2 (toL "sh") (toL "600000")
      (toL "abc") (List.replicate 32 (toL "1")) (by decide) (by decide) (by decide)
    rw [hq]
    rfl

theorem levelsGo_complete (fields : List (List Char)) :
    ∀ (n idx : Nat), idx + 2 * n ≤ fields.length →
      (levelsGo fields idx n).1.length = n ∧ (levelsGo fields idx n).2 = true := by
  intro n
  induction n with
  | zero =>
    intro idx h
    exact ⟨rfl, rfl⟩
  | succ m ih =>
    intro idx h
    have h1 : fields[idx]? = some fields[idx] := List.getElem?_eq_getElem (by omega)
    have h2 : fields[idx + 1]? = some fields[idx + 1] :=
      List.getElem?_eq_getElem (by omega)
    have hrec := ih (idx + 2) (by omega)
    simp only [levelsGo, h1, h2, List.length_cons]
    exact ⟨by rw [hrec.1], hrec.2⟩

theorem buildOrderBook_full (fields : List (List Char)) (h : 30 ≤ fields.length) :
    (buildOrderBook fields).1.length = 5 ∧ (buildOrderBook fields).2.length = 5 := by
  have hb := levelsGo_complete fields 5 10 (by omega)
  have hs := levelsGo_complete fields 5 20 (by omega)
  unfold buildOrderBook
  rw [if_pos hb.2]
  exact ⟨hb.1, hs.1⟩

theorem decodeFields_book {exchange code_digits : List Char}
    {fields : List (List Char)} {q : Quote}
    (h : decodeFields exchange code_digits fields = some q)
    (hne : q.exchange ≠ toL "hk") :
    q.buys.length = 5 ∧ q.sells.length = 5 := by
  simp only [decodeFields] at h
  split at h
  next heq =>
    split at h
    · exact absurd h (by simp)
    · injection h with h9
      rw [← h9] at hne
      exact absurd heq hne
  next hne2 =>
    split at h
    · exact absurd h (by simp)
    next hlen =>
      have h32 : 32 ≤ fields.length := by
        rcases Nat.lt_or_ge fields.length 32 with hlt | hge
        · exact absurd (Or.inl hlt) hlen
        · exact hge
      injection h with h9
      rw [← h9]
      exact buildOrderBook_full fields (by omega)

/-- Claim C10: every Quote the decoder returns for a non-hk market carries
exactly 5 buy levels and exactly 5 sell levels. -/
theorem c10_ashare_five_levels :
    ∀ (line : List Char) (q : Quote), parse_sina_line line = some q →
      q.exchange ≠ toL "hk" → q.buys.length = 5 ∧ q.sells.length = 5 := by
  intro line q h hne
  simp only [parse_sina_line] at h
  split at h
  · exact absurd h (by simp)
  split at h
  · exact absurd h (by simp)
  split at h
  · exact absurd h (by simp)
  split at h
  · exact absurd h (by simp)
  exact decodeFields_book h hne

/-- A concrete A-share response line used to evaluate the decoder. -/
def demoLine : List Char :=
  toL "var hq_str_sh600000=\"N,1,2,3,4,5,6,7,8,9,10,11,12,13,14,15,16,17,18,19,20,21,22,23,24,25,26,27,28,29,2024-09-13,15:00:03\";"

/-- Witness for c10_ashare_five_levels: the decoder output on demoLine is a
non-hk quote, and the theorem then gives it exactly 5 levels per side. -/
theorem c10_ashare_five_levels_witness :
    ∃ q : Quote, parse_sina_line demoLine = some q ∧
      q.buys.length = 5 ∧ q.sells.length = 5 := by
  have hs : (parse_sina_line demoLine).isSome = true := by decide
  obtain ⟨q, hq⟩ := Option.isSome_iff_exists.1 hs
  have hne : q.exchange ≠ toL "hk" := by
    have : q.exchange = toL "sh" := by
      have h2 : (parse_sina_line demoLine).map Quote.exchange = some (toL "sh") := by
        decide
      rw [hq] at h2
      simpa using h2
    rw [this]
    decide
  exact ⟨q, hq, c10_ashare_five_levels demoLine q hq hne⟩

/-- Total resting buy volume over the five levels (buy_shares in the
source). -/
def buy_shares (q : Quote) : Int := (q.buys.map Prod.fst).sum

/-- Total resting sell volume over the five levels (sell_shares in the
source). -/
def sell_shares (q : Quote) : Int := (q.sells.map Prod.fst).sum

/-- Translation of compute_order_metrics: the order-book skew (percent) and
the buy/sell pressure ratio, with the infinite sentinel of the source
modelled by the inf float value. -/
def compute_order_metrics (q : Quote) : PyFloat × PyFloat :=
  let total := buy_shares q + sell_shares q
  let order_ratio : PyFloat :=
    if 0 < total then
      PyFloat.num (((buy_shares q - sell_shares q : Int) : ℚ) / ((total : Int) : ℚ) * 100)
    else PyFloat.num 0
  let buy_sell_ratio : PyFloat :=
    if sell_shares q = 0 then
      (if 0 < buy_shares q then PyFloat.inf else PyFloat.num 1)
    else PyFloat.num (((buy_shares q : Int) : ℚ) / ((sell_shares q : Int) : ℚ))
  (order_ratio, buy_sell_ratio)

/-- A quote with a negative total buy volume, as the decoder produces from a
record whose buy-volume field holds a negative number. -/
def negVolumeQuote : Quote :=
  { exchange := toL "sh", code := toL "600000", name := toL "n",
    current := PyFloat.num 1, prev_close := PyFloat.num 1,
    today_open := PyFloat.num 1, high := PyFloat.num 1, low := PyFloat.num 1,
    bid := PyFloat.num 1, ask := PyFloat.num 1, volume_shares := 0,
    amount_yuan := PyFloat.num 1,
    buys := [(-5, PyFloat.num 1)], sells := [],
    date := [], time := [] }

/-- Counterexample to claim C9 as stated: for a quote whose buy volumes sum
to -5 with empty sells, the skew formula gives 100 but the code returns 0
(its guard tests total greater than zero, not total nonzero), so the skew
does not equal the stated formula for every quote. -/
theorem c9_counterexample :
    (compute_order_metrics negVolumeQuote).1 = PyFloat.num 0
    ∧ ((buy_shares negVolumeQuote - sell_shares negVolumeQuote : Int) : ℚ) /
        ((buy_shares negVolumeQuote + sell_shares negVolumeQuote : Int) : ℚ) * 100 = 100
    ∧ (compute_order_metrics negVolumeQuote).1 ≠
        PyFloat.num (((buy_shares negVolumeQuote - sell_shares negVolumeQuote : Int) : ℚ) /
          ((buy_shares negVolumeQuote + sell_shares negVolumeQuote : Int) : ℚ) * 100) := by
  have hbuy : buy_shares negVolumeQuote = -5 := by decide
  have hsell : sell_shares negVolumeQuote = 0 := by decide
  have hform : ((buy_shares negVolumeQuote - sell_shares negVolumeQuote : Int) : ℚ) /
      ((buy_shares negVolumeQuote + sell_shares negVolumeQuote : Int) : ℚ) * 100 = 100 := by
    rw [hbuy, hsell]
    norm_num
  have hcode : (compute_order_metrics negVolumeQuote).1 = PyFloat.num 0 := rfl
  refine ⟨hcode, hform, ?_⟩
  rw [hcode, hform]
  intro h
  injection h with h2
  norm_num at h2

/-- Claim C9 (amended): for every quote whose order-book volumes are
nonnegative, the skew equals (buyTotal - sellTotal) / (buyTotal + sellTotal)
times 100 (with the division-by-zero convention making this 0 when both
totals are 0), and the pressure ratio is buyTotal / sellTotal, the infinite
sentinel when sellTotal is 0 and buyTotal is positive, and exactly 1 when
both totals are 0. -/
theorem c9_order_metrics :
    ∀ q : Quote, (∀ vp ∈ q.buys, 0 ≤ vp.1) → (∀ vp ∈ q.sells, 0 ≤ vp.1) →
      ((compute_order_metrics q).1 =
        PyFloat.num (((buy_shares q - sell_shares q : Int) : ℚ) /
          ((buy_shares q + sell_shares q : Int) : ℚ) * 100))
      ∧ (buy_shares q = 0 → sell_shares q = 0 →
          (compute_order_metrics q).1 = PyFloat.num 0)
      ∧ (sell_shares q = 0 → 0 < buy_shares q →
          (compute_order_metrics q).2 = PyFloat.inf)
      ∧ (sell_shares q = 0 → buy_shares q = 0 →
          (compute_order_metrics q).2 = PyFloat.num 1)
      ∧ (sell_shares q ≠ 0 →
          (compute_order_metrics q).2 =
            PyFloat.num (((buy_shares q : Int) : ℚ) / ((sell_shares q : Int) : ℚ))) := by
  intro q hb hs
  have hbn : 0 ≤ buy_shares q := by
    apply List.sum_nonneg
    intro x hx
    obtain ⟨vp, hvp, rfl⟩ := List.mem_map.1 hx
    exact hb vp hvp
  have hsn : 0 ≤ sell_shares q := by
    apply List.sum_nonneg
    intro x hx
    obtain ⟨vp, hvp, rfl⟩ := List.mem_map.1 hx
    exact hs vp hvp
  refine ⟨?_, ?_, ?_, ?_, ?_⟩
  · by_cases ht : 0 < buy_shares q + sell_shares q
    · simp only [compute_order_metrics, if_pos ht]
    · have hb0 : buy_shares q = 0 := by omega
      have hs0 : sell_shares q = 0 := by omega
      simp only [compute_order_metrics, if_neg ht, hb0, hs0]
      norm_num
  · intro hb0 hs0
    simp only [compute_order_metrics, hb0, hs0]
    norm_num
  · intro hs0 hbp
    simp only [compute_order_metrics, if_pos hs0, if_pos hbp]
  · intro hs0 hb0
    simp only [compute_order_metrics, if_pos hs0, hb0]
    norm_num
  · intro hs0
    simp only [compute_order_metrics, if_neg hs0]

/-- Witness for c9_order_metrics: a quote with 100 shares of resting buys
and an empty sell book gets skew 100 and the infinite pressure sentinel. -/
theorem c9_order_metrics_witness :
    (compute_order_metrics
      { negVolumeQuote with buys := [(100, PyFloat.num 10)] }).2 = PyFloat.inf := by
  have h := c9_order_metrics { negVolumeQuote with buys := [(100, PyFloat.num 10)] }
    (by decide) (by decide)
  exact h.2.2.1 (by decide) (by decide)

/-
Indicator engine (_simple_moving_average, lines 882-893, _ema, lines
896-906, compute_macd_status, lines 932-952). Python float arithmetic is
modelled by exact rational arithmetic.
-/

/-- Loop body of _simple_moving_average: add the newest value to the
running sum, subtract the value leaving the window, and emit one average
once the first window is full. -/
def smaStep (values : List ℚ) (window : Nat) (st : ℚ × List ℚ) (iv : Nat × ℚ) :
    ℚ × List ℚ :=
  let c1 := st.1 + iv.2
  let c2 := if window ≤ iv.1 then c1 - values.getD (iv.1 - window) 0 else c1
  (c2, if window ≤ iv.1 + 1 then st.2 ++ [c2 / (window : ℚ)] else st.2)

/-- Translation of _simple_moving_average; the source guard window <= 0
collapses to window = 0 on the natural-number window. -/
def _simple_moving_average (values : List ℚ) (window : Nat) : List ℚ :=
  if window = 0 then []
  else (values.enum.foldl (smaStep values window) ((0 : ℚ), ([] : List ℚ))).2

/-- Arithmetic mean of the window of the given size starting at index j. -/
def windowMean (values : List ℚ) (w : Nat) (j : Nat) : ℚ :=
  ((values.drop j).take w).sum / (w : ℚ)

theorem winsum_succ (values : List ℚ) {w k : Nat} (hw : 1 ≤ w)
    (hk : k < values.length) :
    ((values.take (k + 1)).drop (k + 1 - w)).sum =
      if w ≤ k then
        ((values.take k).drop (k - w)).sum + values[k] - values.getD (k - w) 0
      else ((values.take k).drop (k - w)).sum + values[k] := by
  have htake : values.take (k + 1) = values.take k ++ [values[k]] := by
    rw [List.take_succ, List.getElem?_eq_getElem hk]
    rfl
  have hlentake : (values.take k).length = k := by
    rw [List.length_take]
    omega
  by_cases hwk : w ≤ k
  · rw [if_pos hwk, htake, List.drop_append_of_le_length (by omega), List.sum_append,
      List.sum_singleton]
    rw [List.drop_eq_getElem_cons (show k - w < (values.take k).length by omega),
      List.sum_cons, List.getElem_take]
    rw [List.getD_eq_getElem?_getD,
      List.getElem?_eq_getElem (show k - w < values.length by omega)]
    simp only [Option.getD_some]
    have heq : k - w + 1 = k + 1 - w := by omega
    rw [heq]
    ring
  · rw [if_neg hwk, htake]
    have h0 : k + 1 - w = 0 := by omega
    have h0b : k - w = 0 := by omega
    rw [h0, h0b, List.drop_zero, List.drop_zero, List.sum_append, List.sum_singleton]

theorem sma_fold_spec (values : List ℚ) (w : Nat) (hw : 1 ≤ w) :
    ∀ (tl : List ℚ) (k : Nat) (acc : List ℚ), tl = values.drop k →
      k ≤ values.length →
      ((List.enumFrom k tl).foldl (smaStep values w)
          ((((values.take k).drop (k - w)).sum), acc)).2 =
        acc ++ ((List.range (values.length + 1 - w)).map (windowMean values w)).drop
          (k + 1 - w) := by
  intro tl
  induction tl with
  | nil =>
    intro k acc htl hk
    have hkl : values.length ≤ k := by
      have hlen := congrArg List.length htl
      simp only [List.length_nil, List.length_drop] at hlen
      omega
    simp only [List.enumFrom, List.foldl_nil]
    rw [List.drop_eq_nil_of_le (by
      rw [List.length_map, List.length_range]
      omega)]
    simp
  | cons v tl' ih =>
    intro k acc htl hk
    have hk1 : k < values.length := by
      by_contra hcon
      push_neg at hcon
      rw [List.drop_eq_nil_of_le hcon] at htl
      exact List.noConfusion htl
    have hhead : values[k]? = some v := by
      rw [← List.head?_drop, ← htl]
      rfl
    have hv : values[k] = v := by
      have := List.getElem?_eq_getElem hk1
      rw [hhead] at this
      exact (Option.some.injEq _ _ ▸ this.symm)
    have htl' : tl' = values.drop (k + 1) := by
      rw [← List.tail_drop, ← htl]
      rfl
    rw [List.enumFrom_cons, List.foldl_cons]
    have hstep : smaStep values w ((((values.take k).drop (k - w)).sum), acc) (k, v) =
        ((((values.take (k + 1)).drop (k + 1 - w)).sum),
          if w ≤ k + 1 then
            acc ++ [(((values.take (k + 1)).drop (k + 1 - w)).sum) / (w : ℚ)]
          else acc) := by
      unfold smaStep
      rw [winsum_succ values hw hk1, hv]
    rw [hstep]
    by_cases hwk1 : w ≤ k + 1
    · rw [if_pos hwk1]
      rw [ih (k + 1) _ htl' (by omega)]
      have hj0 : k + 1 - w < values.length + 1 - w := by omega
      have hmaplen : k + 1 - w <
          ((List.range (values.length + 1 - w)).map (windowMean values w)).length := by
        rw [List.length_map, List.length_range]
        omega
      rw [List.drop_eq_getElem_cons hmaplen, List.getElem_map, List.getElem_range]
      have hwm : windowMean values w (k + 1 - w) =
          (((values.take (k + 1)).drop (k + 1 - w)).sum) / (w : ℚ) := by
        unfold windowMean
        rw [List.drop_take]
        have : k + 1 - (k + 1 - w) = w := by omega
        rw [this]
      have hidx : k + 1 + 1 - w = k + 1 - w + 1 := by omega
      rw [hwm, hidx, List.append_assoc]
      rfl
    · rw [if_neg hwk1]
      rw [ih (k + 1) _ htl' (by omega)]
      have h1 : k + 1 - w = 0 := by omega
      have h2 : k + 1 + 1 - w = 0 := by omega
      rw [h1, h2]

theorem sma_eq_map (values : List ℚ) (w : Nat) (hw : 1 ≤ w) :
    _simple_moving_average values w =
      (List.range (values.length + 1 - w)).map (windowMean values w) := by
  unfold _simple_moving_average
  rw [if_neg (by omega)]
  have h := sma_fold_spec values w hw values 0 [] (by rfl) (Nat.zero_le _)
  have h10 : 1 - w = 0 := by omega
  rw [h10, List.drop_zero] at h
  simpa [List.enum] using h

/-- Claim C7: over n values with window w (1 <= w <= n) the simple moving
average produces exactly n - w + 1 outputs, the j-th being the arithmetic
mean of the w consecutive inputs starting at index j; and on 1,2,3,4,5 with
window 3 the output is 2,3,4. -/
theorem c7_sma_windowed :
    (∀ (values : List ℚ) (w : Nat), 1 ≤ w → w ≤ values.length →
      (_simple_moving_average values w).length = values.length - w + 1
      ∧ ∀ j, j < values.length - w + 1 →
          (_simple_moving_average values w)[j]? =
            some (((values.drop j).take w).sum / (w : ℚ)))
    ∧ _simple_moving_average [1, 2, 3, 4, 5] 3 = [2, 3, 4] := by
  constructor
  · intro values w hw hwn
    rw [sma_eq_map values w hw]
    constructor
    · rw [List.length_map, List.length_range]
      omega
    · intro j hj
      rw [List.getElem?_map, List.getElem?_range (by omega)]
      rfl
  · rw [sma_eq_map _ 3 (by norm_num)]
    show List.map (windowMean [1, 2, 3, 4, 5] 3) (List.range 3) = [2, 3, 4]
    rw [show List.range 3 = [0, 1, 2] from rfl]
    simp only [List.map_cons, List.map_nil, windowMean]
    norm_num

/-- Witness for c7_sma_windowed: the universally quantified part evaluated
on the concrete five-value list. -/
theorem c7_sma_windowed_witness :
    (_simple_moving_average [1, 2, 3, 4, 5] 3).length = 5 - 3 + 1 := by
  have h := (c7_sma_windowed.1 [1, 2, 3, 4, 5] 3 (by norm_num) (by norm_num)).1
  simpa using h

/-- One K-line bar as parsed from the EastMoney kline records (source lines
772-790); numeric fields are modelled as exact rationals. -/
structure Bar where
  date : List Char
  open_p : ℚ
  close : ℚ
  high : ℚ
  low : ℚ
  volume : ℚ
  amount : ℚ
  amplitude_pct : ℚ
  change_pct : ℚ
  change_amt : ℚ
  turnover_pct : ℚ
deriving DecidableEq

/-- Tail recursion of _ema: each output is value * k + previous * (1 - k). -/
def emaGo (k : ℚ) : List ℚ → ℚ → List ℚ
  | [], _ => []
  | v :: rest, prev =>
    let e := v * k + prev * (1 - k)
    e :: emaGo k rest e

/-- Translation of _ema: empty for period 0 or empty input, else seeded
with the first value and smoothed with k = 2 / (period + 1). -/
def _ema (values : List ℚ) (period : Nat) : List ℚ :=
  if period = 0 then []
  else
    match values with
    | [] => []
    | v0 :: rest => v0 :: emaGo (2 / ((period : ℚ) + 1)) rest v0

theorem emaGo_length (k : ℚ) : ∀ (l : List ℚ) (prev : ℚ),
    (emaGo k l prev).length = l.length := by
  intro l
  induction l with
  | nil => intro prev; rfl
  | cons v rest ih =>
    intro prev
    simp only [emaGo, List.length_cons]
    rw [ih]

theorem ema_length (values : List ℚ) (period : Nat) (hp : period ≠ 0) :
    (_ema values period).length = values.length := by
  unfold _ema
  rw [if_neg hp]
  cases values with
  | nil => rfl
  | cons v0 rest =>
    simp only [List.length_cons]
    rw [emaGo_length]

/-- The fast line: pointwise difference of the 12-period and 26-period
exponential averages of the closes (dif in the source). -/
def macdDif (closes : List ℚ) : List ℚ :=
  let ema12 := _ema closes 12
  let ema26 := _ema closes 26
  let n := min ema12.length ema26.length
  (List.range n).map (fun i => ema12.getD i 0 - ema26.getD i 0)

/-- The signal line: 9-period exponential average of the fast line (dea in
the source). -/
def macdDea (closes : List ℚ) : List ℚ := _ema (macdDif closes) 9

/-- Translation of compute_macd_status: compare the last two values of
(fast minus signal) and report the golden-cross, dead-cross or no-signal
string. -/
def compute_macd_status (bars : List Bar) : String :=
  let closes := bars.map Bar.close
  if closes.length < 2 then "—"
  else
    let ema12 := _ema closes 12
    let ema26 := _ema closes 26
    let n := min ema12.length ema26.length
    if n < 2 then "—"
    else
      let dif := macdDif closes
      let dea := macdDea closes
      if dea.length < 2 then "—"
      else
        let lastv := dif.getD (dif.length - 1) 0 - dea.getD (dea.length - 1) 0
        let prev := dif.getD (dif.length - 2) 0 - dea.getD (dea.length - 2) 0
        if 0 ≤ lastv ∧ prev < 0 then "金叉"
        else if lastv ≤ 0 ∧ 0 < prev then "死叉"
        else "—"

theorem macdDif_length (closes : List ℚ) :
    (macdDif closes).length = min (_ema closes 12).length (_ema closes 26).length := by
  unfold macdDif
  rw [List.length_map, List.length_range]

/-- The last and the one-before-last value of (fast minus signal). -/
def macdLastPrev (closes : List ℚ) : ℚ × ℚ :=
  let dif := macdDif closes
  let dea := macdDea closes
  (dif.getD (dif.length - 1) 0 - dea.getD (dea.length - 1) 0,
   dif.getD (dif.length - 2) 0 - dea.getD (dea.length - 2) 0)

/-- Claim C8: the crossover state is the bullish string exactly when the
last two values of (fast minus signal) flip from negative to zero or
positive, the bearish string exactly when they flip from positive to zero
or negative, and the no-signal string in every other case, including
whenever fewer than 2 points exist. -/
theorem c8_macd_crossover :
    ∀ bars : List Bar,
      (bars.length < 2 → compute_macd_status bars = "—")
      ∧ (2 ≤ bars.length →
          (compute_macd_status bars = "金叉" ↔
            (macdLastPrev (bars.map Bar.close)).2 < 0 ∧
              0 ≤ (macdLastPrev (bars.map Bar.close)).1))
      ∧ (2 ≤ bars.length →
          (compute_macd_status bars = "死叉" ↔
            0 < (macdLastPrev (bars.map Bar.close)).2 ∧
              (macdLastPrev (bars.map Bar.close)).1 ≤ 0))
      ∧ (compute_macd_status bars ≠ "金叉" → compute_macd_status bars ≠ "死叉" →
          compute_macd_status bars = "—") := by
  intro bars
  by_cases hlen : bars.length < 2
  · have hst : compute_macd_status bars = "—" := by
      unfold compute_macd_status
      rw [if_pos (by rw [List.length_map]; exact hlen)]
    refine ⟨fun _ => hst, fun h2 => absurd h2 (by omega), fun h2 => absurd h2 (by omega),
      fun _ _ => hst⟩
  · push_neg at hlen
    have hclen : (bars.map Bar.close).length = bars.length := List.length_map bars Bar.close
    have h12 : (_ema (bars.map Bar.close) 12).length = bars.length := by
      rw [ema_length _ _ (by norm_num), hclen]
    have h26 : (_ema (bars.map Bar.close) 26).length = bars.length := by
      rw [ema_length _ _ (by norm_num), hclen]
    have hdif : (macdDif (bars.map Bar.close)).length = bars.length := by
      rw [macdDif_length, h12, h26]
      omega
    have hdea : (macdDea (bars.map Bar.close)).length = bars.length := by
      unfold macdDea
      rw [ema_length _ _ (by norm_num), hdif]
    have hst : compute_macd_status bars =
        (if 0 ≤ (macdLastPrev (bars.map Bar.close)).1 ∧
            (macdLastPrev (bars.map Bar.close)).2 < 0 then "金叉"
         else if (macdLastPrev (bars.map Bar.close)).1 ≤ 0 ∧
            0 < (macdLastPrev (bars.map Bar.close)).2 then "死叉"
         else "—") := by
      unfold compute_macd_status macdLastPrev
      rw [if_neg (by rw [hclen]; omega), if_neg (by rw [h12, h26]; omega),
        if_neg (by rw [hdea]; omega)]
    refine ⟨fun h2 => absurd hlen (by omega), ?_, ?_, ?_⟩
    · intro h2
      rw [hst]
      constructor
      · intro hs
        by_cases hc : 0 ≤ (macdLastPrev (bars.map Bar.close)).1 ∧
            (macdLastPrev (bars.map Bar.close)).2 < 0
        · exact ⟨hc.2, hc.1⟩
        · rw [if_neg hc] at hs
          split at hs <;> simp at hs
      · intro hc
        rw [if_pos ⟨hc.2, hc.1⟩]
    · intro h2
      rw [hst]
      constructor
      · intro hs
        by_cases hc : 0 ≤ (macdLastPrev (bars.map Bar.close)).1 ∧
            (macdLastPrev (bars.map Bar.close)).2 < 0
        · rw [if_pos hc] at hs
          simp at hs
        · rw [if_neg hc] at hs
          by_cases hc2 : (macdLastPrev (bars.map Bar.close)).1 ≤ 0 ∧
              0 < (macdLastPrev (bars.map Bar.close)).2
          · exact ⟨hc2.2, hc2.1⟩
          · rw [if_neg hc2] at hs
            simp at hs
      · intro hc
        have hnc : ¬(0 ≤ (macdLastPrev (bars.map Bar.close)).1 ∧
            (macdLastPrev (bars.map Bar.close)).2 < 0) := by
          rintro ⟨h3, h4⟩
          have h5 := hc.1
          linarith
        rw [if_neg hnc, if_pos ⟨hc.2, hc.1⟩]
    · intro hng hnd
      rw [hst] at hng hnd ⊢
      by_cases hc1 : 0 ≤ (macdLastPrev (bars.map Bar.close)).1 ∧
          (macdLastPrev (bars.map Bar.close)).2 < 0
      · rw [if_pos hc1] at hng
        exact absurd rfl hng
      · rw [if_neg hc1] at hnd ⊢
        by_cases hc2 : (macdLastPrev (bars.map Bar.close)).1 ≤ 0 ∧
            0 < (macdLastPrev (bars.map Bar.close)).2
        · rw [if_pos hc2] at hnd
          exact absurd rfl hnd
        · rw [if_neg hc2]

/-- Witness for c8_macd_crossover: on an empty bar list the no-signal
string is reported. -/
theorem c8_macd_crossover_witness : compute_macd_status [] = "—" :=
  (c8_macd_crossover []).1 (by decide)
